import Mathlib

/-!
Shallow embedding of the viur-core result cache (`cache.py`) and of the
boolean bone (`bones/booleanBone.py`), with theorems checking the
natural-language specification against the code.

Modelling conventions:
* Python values flowing through the cache are modelled by the inductive
  type `Value` (`None`, strings, ints, bools), with `pyStr` playing the
  role of Python's `str()` on those values.
* Python dicts keyed by strings are association lists (`Dict`) with the
  insert-or-overwrite operation `dinsert`; Python dicts have unique keys,
  which `dinsert` preserves.
* The sha512 digest of `str(sorted(res.items()))` is modelled by the
  sorted item list itself (the exact data the digest is computed from);
  the digest is treated as injective, so equality/distinctness of cache
  keys is equality/distinctness of these canonical lists.
* Python string comparison (used by the datastore's ordered `path` field
  and by `sorted`) is code-point-wise lexicographic comparison, modelled
  on `String.data : List Char`.
* Timestamps (`datetime.now()`, `timedelta(seconds=...)`) are modelled as
  integers on a discrete timeline (Python datetimes are microsecond
  ticks); `maxCacheTime` is measured on the same timeline.
-/

/-- A Python value as far as the cache and the boolean bone care:
`None`, a string, an integer or a boolean. -/
inductive Value where
  | none
  | str (s : String)
  | int (n : Int)
  | bool (b : Bool)
deriving DecidableEq, Repr

/-- Python's `str()` on the modelled values (`str(True) = "True"` etc.). -/
def pyStr : Value → String
  | .none => "None"
  | .str s => s
  | .int n => toString n
  | .bool true => "True"
  | .bool false => "False"

/-- A Python dict keyed by strings, as an association list in insertion
order (Python dicts preserve insertion order and have unique keys). -/
abbrev Dict := List (String × Value)

/-- `dinsert d k v` is Python's `d[k] = v`: overwrite the (unique)
binding of `k` in place if present, otherwise append the new binding at
the end (Python dicts keep insertion order). -/
def dinsert : Dict → String → Value → Dict
  | [], k, v => [(k, v)]
  | p :: d, k, v => if p.1 = k then (k, v) :: d else p :: dinsert d k v

/-- Key list of a dict (`d.keys()`). -/
def keysOf (d : Dict) : List String := d.map Prod.fst

/-- A dict has unique keys. All dicts built by `dinsert` from `[]` do. -/
def NodupKeys (d : Dict) : Prop := (keysOf d).Nodup

theorem lookup_dinsert_self (d : Dict) (k : String) (v : Value) :
    List.lookup k (dinsert d k v) = some v := by
  induction d with
  | nil => simp [dinsert, List.lookup]
  | cons p d ih =>
    rcases eq_or_ne p.1 k with hpk | hpk
    · simp [dinsert, hpk, List.lookup]
    · have hk : (k == p.1) = false := beq_eq_false_iff_ne.mpr (Ne.symm hpk)
      simp [dinsert, hpk, List.lookup, hk, ih]

/-- The strings Python renders a truthy boolean client/datastore value as:
`trueStrs = [str(True), u"1", u"yes"]` in `booleanBone`. -/
def trueStrs : List String := ["True", "1", "yes"]

/-- `booleanBone.serialize`: writes `valuesCache.get(name, False)` into the
entity under `name` and returns the entity. -/
def booleanBone.serialize (valuesCache : Dict) (name : String) (entity : Dict) : Dict :=
  dinsert entity name ((List.lookup name valuesCache).getD (.bool false))

/-- `booleanBone.unserialize`: if `name` is present in the entity, coerce
its value through `str(val) in trueStrs` and store the boolean into the
values cache; otherwise leave the values cache alone. -/
def booleanBone.unserialize (valuesCache : Dict) (name : String) (expando : Dict) : Dict :=
  match List.lookup name expando with
  | some val => dinsert valuesCache name (.bool (decide (pyStr val ∈ trueStrs)))
  | Option.none => valuesCache

theorem pyStr_bool_mem_trueStrs (b : Bool) :
    decide (pyStr (.bool b) ∈ trueStrs) = b := by
  cases b <;> decide

/-- C10: for every field name and boolean `b` held in the values cache,
`booleanBone.serialize` followed by `booleanBone.unserialize` on the
resulting entity restores exactly `b` into the (arbitrary) target values
cache; when the name is absent from the values cache, `serialize` writes
`False`, so the round trip yields `False`. -/
theorem booleanBone_roundtrip (valuesCache valuesCache' entity : Dict) (name : String) :
    (∀ b : Bool, List.lookup name valuesCache = some (.bool b) →
      List.lookup name
        (booleanBone.unserialize valuesCache' name
          (booleanBone.serialize valuesCache name entity)) = some (.bool b)) ∧
    (List.lookup name valuesCache = Option.none →
      List.lookup name
        (booleanBone.unserialize valuesCache' name
          (booleanBone.serialize valuesCache name entity)) = some (.bool false)) := by
  constructor
  · intro b hb
    unfold booleanBone.unserialize booleanBone.serialize
    rw [hb]
    simp only [Option.getD_some, lookup_dinsert_self]
    rw [pyStr_bool_mem_trueStrs]
  · intro hb
    unfold booleanBone.unserialize booleanBone.serialize
    rw [hb]
    simp only [Option.getD_none, lookup_dinsert_self]
    rw [pyStr_bool_mem_trueStrs]

/-- Witness for C10 at a concrete input: a values cache holding `True`
under `"active"` round-trips to `True`, and a missing name yields `False`. -/
theorem booleanBone_roundtrip_witness :
    List.lookup "active"
      (booleanBone.unserialize [] "active"
        (booleanBone.serialize [("active", Value.bool true)] "active" [])) =
      some (Value.bool true) ∧
    List.lookup "gone"
      (booleanBone.unserialize [] "gone"
        (booleanBone.serialize [("active", Value.bool true)] "gone" [])) =
      some (Value.bool false) :=
  ⟨(booleanBone_roundtrip [("active", Value.bool true)] [] [] "active").1 true (by decide),
   (booleanBone_roundtrip [("active", Value.bool true)] [] [] "gone").2 (by decide)⟩

/-- A cached entry as persisted by `wrapF`: a `db.Entity` with the
properties `data`, `creationtime`, `path` and `content-type`. -/
structure CacheEntry where
  data : Value
  creationtime : Int
  path : String
  contentType : String
deriving DecidableEq, Repr

/-- The canonical cache key: the sorted item list whose `str()` is fed to
sha512 (the digest itself is treated as injective). -/
abbrev CacheKey := List (String × Value)

/-- The `viur-cache` datastore kind: entries addressed by key name. -/
abbrev Store := List (CacheKey × CacheEntry)

/-- Python string comparison (`<` on str, datastore order on the `path`
property): code-point-wise lexicographic order, as a computable test. -/
def lexLt : List Char → List Char → Bool
  | [], [] => false
  | [], _ :: _ => true
  | _ :: _, [] => false
  | a :: as, b :: bs => if a < b then true else if b < a then false else lexLt as bs

/-- Python `s.rstrip("*")`: remove every trailing `*`. -/
def rstripStar (s : String) : String :=
  ⟨(s.data.reverse.dropWhile (fun c => c == '*')).reverse⟩

/-- Python `s.endswith("*")` (stated via the reversed character list so
that it lines up with `rstripStar`). -/
def endsWithStar (s : String) : Bool := s.data.reverse.head? == some '*'

/-- `flushCache(prefix)` from cache.py acting on a store snapshot: delete
every entry whose `path` equals `prefix.rstrip("*")`; then, if `prefix`
ends in `*`, additionally range-delete every entry whose `path` lies
strictly between the stem and the stem extended by `u"�"`. -/
def flushCache (pfx : String) (store : Store) : Store :=
  let stem := rstripStar pfx
  let s1 := store.filter (fun kv => !(kv.2.path == stem))
  if endsWithStar pfx then
    s1.filter (fun kv =>
      !(lexLt stem.data kv.2.path.data && lexLt kv.2.path.data (stem.data ++ ['�'])))
  else s1

theorem rstripStar_of_not_star (s : String) (h : endsWithStar s = false) :
    rstripStar s = s := by
  unfold rstripStar
  cases hrev : s.data.reverse with
  | nil =>
    have hdata : s.data = [] := by
      have := congrArg List.reverse hrev
      simpa using this
    cases s with
    | mk d =>
      simp only at hdata
      subst hdata
      simp [hrev]
  | cons c t =>
    have hc : (c == '*') = false := by
      unfold endsWithStar at h
      rw [hrev] at h
      simpa using h
    rw [List.dropWhile_cons_of_neg (by simp [hc])]
    have := congrArg List.reverse hrev
    simp only [List.reverse_reverse] at this
    simp [← this]

theorem lexLt_range_iff (s p : List Char) (h : ∀ c ∈ p, c < '�') :
    (lexLt s p = true ∧ lexLt p (s ++ ['�']) = true) ↔ ∃ t, p = s ++ t ∧ t ≠ [] := by
  induction s generalizing p with
  | nil =>
    cases p with
    | nil => simp [lexLt]
    | cons c t =>
      have hc : c < '�' := h c (List.mem_cons_self c t)
      simp [lexLt, hc]
  | cons a s' ih =>
    cases p with
    | nil => simp [lexLt]
    | cons b p' =>
      rcases lt_trichotomy a b with hab | heq | hba
      · have h1 : lexLt (b :: p') ((a :: s') ++ ['�']) = false := by
          simp [lexLt, hab, asymm hab]
        constructor
        · rintro ⟨-, h2⟩
          rw [h1] at h2
          exact absurd h2 (by simp)
        · rintro ⟨t, ht, -⟩
          have : b = a := by simpa using congrArg List.head? ht
          exact absurd hab (by simp [this])
      · subst heq
        have hp' : ∀ c ∈ p', c < '�' := fun c hc => h c (List.mem_cons_of_mem a hc)
        have := ih p' hp'
        constructor
        · rintro ⟨h1, h2⟩
          simp only [lexLt, lt_irrefl, if_false, List.cons_append] at h1 h2
          rcases this.mp ⟨h1, h2⟩ with ⟨t, ht, htne⟩
          exact ⟨t, by simp [ht], htne⟩
        · rintro ⟨t, ht, htne⟩
          have ht' : p' = s' ++ t := by simpa using ht
          rcases this.mpr ⟨t, ht', htne⟩ with ⟨h1, h2⟩
          constructor
          · simpa [lexLt, lt_irrefl] using h1
          · simpa [lexLt, lt_irrefl] using h2
      · have h1 : lexLt (a :: s') (b :: p') = false := by
          simp [lexLt, hba, asymm hba]
        constructor
        · rintro ⟨h2, -⟩
          rw [h1] at h2
          exact absurd h2 (by simp)
        · rintro ⟨t, ht, -⟩
          have : b = a := by simpa using congrArg List.head? ht
          exact absurd hba (by simp [this])

/-- C7: flushing with a prefix that has no trailing wildcard deletes
exactly the entries whose `path` equals the prefix; every entry with a
different path (descendants such as `/page/view/sub` included) survives. -/
theorem flushCache_exact_mem (pfx : String) (store : Store) (kv : CacheKey × CacheEntry)
    (h : endsWithStar pfx = false) :
    kv ∈ flushCache pfx store ↔ kv ∈ store ∧ kv.2.path ≠ pfx := by
  unfold flushCache
  rw [h, rstripStar_of_not_star pfx h]
  simp [List.mem_filter]

/-- Witness for C7: flushing `/page/view` removes the exact entry and
leaves the `/page/view/sub` entry in place. -/
theorem flushCache_exact_mem_witness :
    (([("k", Value.int 2)], CacheEntry.mk (Value.str "sub") 0 "/page/view/sub" "text/html") ∈
      flushCache "/page/view"
        [([("k", Value.int 1)], CacheEntry.mk (Value.str "top") 0 "/page/view" "text/html"),
         ([("k", Value.int 2)], CacheEntry.mk (Value.str "sub") 0 "/page/view/sub" "text/html")] ↔
      (([("k", Value.int 2)], CacheEntry.mk (Value.str "sub") 0 "/page/view/sub" "text/html") ∈
        [([("k", Value.int 1)], CacheEntry.mk (Value.str "top") 0 "/page/view" "text/html"),
         ([("k", Value.int 2)], CacheEntry.mk (Value.str "sub") 0 "/page/view/sub" "text/html")] ∧
        ("/page/view/sub" : String) ≠ "/page/view")) :=
  flushCache_exact_mem "/page/view" _ _ (by decide)

/-- C1 counterexample: the claim says `flush("/page/*")` deletes the
entry whose path equals the stem `/page`; in the code the stem is
`"/page/*".rstrip("*") = "/page/"`, so an entry with path `/page` is
neither matched exactly nor contained in the range `("/page/", "/page/�")`
and survives the flush untouched. -/
theorem flushCache_wildcard_counterexample :
    flushCache "/page/*"
      [([("k", Value.int 1)], CacheEntry.mk (Value.str "x") 0 "/page" "text/html")] =
      [([("k", Value.int 1)], CacheEntry.mk (Value.str "x") 0 "/page" "text/html")] := by
  decide

/-- C1 amended: wildcard flush, with the stem being the prefix with only
its trailing `*` characters removed (so `flush("/page/*")` has stem
`/page/`, not `/page`). For every entry whose path stays below the range
sentinel `u"�"` character-wise, the entry is deleted exactly when the stem
is a string prefix of its path (stem itself, and every strict extension
such as `/page/view` or `/page/view/sub`); `/page` and `/pageX` survive. -/
theorem flushCache_wildcard_mem (pfx : String) (store : Store) (kv : CacheKey × CacheEntry)
    (hw : endsWithStar pfx = true)
    (hchar : ∀ c ∈ kv.2.path.data, c < '�') :
    kv ∈ flushCache pfx store ↔
      kv ∈ store ∧ ¬ ∃ t, kv.2.path.data = (rstripStar pfx).data ++ t := by
  unfold flushCache
  rw [hw]
  simp only [if_true, List.mem_filter, List.mem_filter]
  constructor
  · rintro ⟨⟨hs, hne⟩, hnr⟩
    refine ⟨hs, ?_⟩
    rintro ⟨t, ht⟩
    cases t with
    | nil =>
      apply absurd hne
      simp only [List.append_nil] at ht
      have : kv.2.path = rstripStar pfx := by
        cases hp : kv.2.path with
        | mk d =>
          cases hq : rstripStar pfx with
          | mk d' =>
            have : d = d' := by
              have h1 := ht
              rw [hp, hq] at h1
              exact h1
            rw [this]
      simp [this]
    | cons c t' =>
      apply absurd hnr
      have hrange := (lexLt_range_iff (rstripStar pfx).data kv.2.path.data hchar).mpr
        ⟨c :: t', ht, by simp⟩
      simp [hrange.1, hrange.2]
  · rintro ⟨hs, hnp⟩
    have hne : kv.2.path ≠ rstripStar pfx := by
      intro h
      exact hnp ⟨[], by simp [h]⟩
    have hnr : ¬ (lexLt (rstripStar pfx).data kv.2.path.data = true ∧
        lexLt kv.2.path.data ((rstripStar pfx).data ++ ['�']) = true) := by
      intro hr
      rcases (lexLt_range_iff (rstripStar pfx).data kv.2.path.data hchar).mp hr with ⟨t, ht, -⟩
      exact hnp ⟨t, ht⟩
    refine ⟨⟨hs, by simpa using hne⟩, ?_⟩
    cases hA : lexLt (rstripStar pfx).data kv.2.path.data with
    | false => simp [hA]
    | true =>
      cases hB : lexLt kv.2.path.data ((rstripStar pfx).data ++ ['�']) with
      | false => simp [hA, hB]
      | true => exact absurd ⟨hA, hB⟩ hnr

/-- Witness for the amended C1 at concrete inputs: flushing `/page/*`
keeps `/page` (stem not a prefix of it) and the membership equivalence is
the one the amended claim states. -/
theorem flushCache_wildcard_mem_witness :
    (([("k", Value.int 3)], CacheEntry.mk (Value.str "v") 0 "/page/view" "text/html") ∈
      flushCache "/page/*"
        [([("k", Value.int 3)], CacheEntry.mk (Value.str "v") 0 "/page/view" "text/html")] ↔
      (([("k", Value.int 3)], CacheEntry.mk (Value.str "v") 0 "/page/view" "text/html") ∈
        [([("k", Value.int 3)], CacheEntry.mk (Value.str "v") 0 "/page/view" "text/html")] ∧
        ¬ ∃ t, ("/page/view" : String).data = (rstripStar "/page/*").data ++ t)) :=
  flushCache_wildcard_mem "/page/*" _ _ (by decide) (by decide)

theorem filter_twice_pair {α : Type} (p q : α → Bool) (l : List α) :
    List.filter p (List.filter q (List.filter p (List.filter q l))) =
      List.filter p (List.filter q l) := by
  simp only [List.filter_filter]
  exact List.filter_congr fun x _ => by
    cases hp : p x <;> cases hq : q x <;> simp [hp, hq]

/-- C8: flushing the same prefix twice in a row leaves the store exactly
as one flush does; the second run deletes nothing. -/
theorem flushCache_idempotent (pfx : String) (store : Store) :
    flushCache pfx (flushCache pfx store) = flushCache pfx store := by
  unfold flushCache
  cases hw : endsWithStar pfx with
  | false =>
    simp only [if_false, Bool.false_eq_true]
    simp only [List.filter_filter]
    exact List.filter_congr fun x _ => by
      cases hp : !(x.2.path == rstripStar pfx) <;> simp [hp]
  | true =>
    simp only [if_true]
    exact filter_twice_pair _ _ store

/-- The reflection data `keyFromArgs` reads off the wrapped callable `f`:
`argsOrder = co_varnames[1:argcount]` (declared parameter names after
`self`), `func_defaults` (values for the trailing parameters), and the
call behaviour itself (returning the response body and the content-type
header the handler sets). -/
structure Handler where
  argsOrder : List String
  defaults : List Value
  run : List Value → List (String × Value) → Value × String

/-- Ambient request/process context read by `keyFromArgs` and `wrapF`:
the global and per-request cache-disable flags, the request's argument
count and path segments, the current user (its `key` when logged in), the
request language, the optional `conf["viur.cacheEnvironmentKey"]` hook
(`some Option.none` models the hook raising `RuntimeError`), and the raw
`CURRENT_VERSION_ID` environ entry (`Option.none` models the lookup
failing). -/
structure ReqCtx where
  disableCacheConf : Bool
  reqDisableCache : Bool
  reqArgsCount : Nat
  pathlist : List String
  user : Option Value
  language : String
  cacheEnvironmentKey : Option (Option Value)
  currentVersionId : Option String

/-- Errors `keyFromArgs` can raise: the `IndexError` from popping an
exhausted reversed-parameter list (more defaults than parameters after
`self`) and the `AssertionError` for a duplicated argument. -/
inductive KErr where
  | indexError
  | assertionError (name : String)
deriving DecidableEq, Repr

/-- The defaults-mapping loop: walk the reversed defaults and pop names
off the reversed parameter list, writing `res[name] = defaultValue`. -/
def defaultsDict (f : Handler) : Dict :=
  (f.argsOrder.reverse.zip f.defaults.reverse).foldl (fun d p => dinsert d p.1 p.2) []

/-- The positional-argument loop: for each index below
`min(len(args), len(argsOrder))` (the zip), record allowlisted names in
`setArgs` and write the value under the parameter name. -/
def posLoop (ea : List String) : List (String × Value) → List String × Dict → List String × Dict
  | [], st => st
  | (name, v) :: rest, st =>
    if name ∈ ea then posLoop ea rest (st.1 ++ [name], dinsert st.2 name v)
    else posLoop ea rest st

/-- The keyword-argument loop: allowlisted keyword arguments are written
in; a keyword that was already set positionally raises the duplicate
AssertionError; everything else is ignored. -/
def applyKwargs (ea setArgs : List String) : List (String × Value) → Dict → Except KErr Dict
  | [], d => .ok d
  | (k, v) :: rest, d =>
    if k ∈ ea then
      if k ∈ setArgs then .error (.assertionError k)
      else applyKwargs ea setArgs rest (dinsert d k v)
    else applyKwargs ea setArgs rest d

/-- The `userSensitive` block: mode 1 with a logged-in user aborts with
`None` (uncacheable); mode 2 buckets into `"__ISUSER"`/`None`; mode 3
buckets per user key; any other mode leaves the dict alone. -/
def afterUser (us : Nat) (user : Option Value) (d : Dict) : Option Dict :=
  if us == 1 && user.isSome then Option.none
  else some (
    if us == 2 then dinsert d "__user" (if user.isSome then .str "__ISUSER" else .none)
    else if us == 3 then dinsert d "__user" (user.getD .none)
    else d)

/-- The `languageSensitive` step: fold the request language in. -/
def afterLang (ls : Bool) (lang : String) (d : Dict) : Dict :=
  if ls then dinsert d "__lang" (.str lang) else d

/-- The `conf["viur.cacheEnvironmentKey"]` step: absent hook passes the
dict through, a raising hook makes the call uncacheable, a value is
folded in under `_cacheEnvironment`. -/
def afterEnv (ek : Option (Option Value)) (d : Dict) : Option Dict :=
  match ek with
  | Option.none => some d
  | some Option.none => Option.none
  | some (some v) => some (dinsert d "_cacheEnvironment" v)

/-- `CURRENT_VERSION_ID.split('.')[0]` — the characters before the first
dot — or `""` when the environ lookup fails. -/
def appVersionOf (cv : Option String) : String :=
  match cv with
  | some s => ⟨s.data.takeWhile (fun c => !(c == '.'))⟩
  | Option.none => ""

/-- Sort order used on the flattened items: ascending by key string
(`res.sort(key=lambda x: x[0])`). -/
def keyOrder (p q : String × Value) : Prop := lexLt q.1.data p.1.data = false

instance : DecidableRel keyOrder := fun p q => by
  unfold keyOrder
  infer_instance

/-- `sorted` by key name; Python's stable sort on unique keys. -/
def sortPairs (d : Dict) : CacheKey := List.insertionSort keyOrder d

/-- The tail of `keyFromArgs`: write `__path` and `__appVersion`, check
that every declared parameter got a value, flatten and sort. -/
def finalize (argsOrder : List String) (path appVersion : String) (d : Dict) : Option CacheKey :=
  if argsOrder.all (fun x =>
      decide (x ∈ keysOf (dinsert (dinsert d "__path" (.str path)) "__appVersion" (.str appVersion)))) then
    some (sortPairs (dinsert (dinsert d "__path" (.str path)) "__appVersion" (.str appVersion)))
  else Option.none

/-- Everything `keyFromArgs` does after the argument dict is assembled. -/
def keyTail (us : Nat) (ls : Bool) (path : String) (ctx : ReqCtx) (argsOrder : List String)
    (d : Dict) : Option CacheKey :=
  match afterUser us ctx.user d with
  | Option.none => Option.none
  | some d3 =>
    match afterEnv ctx.cacheEnvironmentKey (afterLang ls ctx.language d3) with
    | Option.none => Option.none
    | some d5 => finalize argsOrder path (appVersionOf ctx.currentVersionId) d5

/-- `keyFromArgs` from cache.py. `Except.error` models a raised exception,
`Except.ok Option.none` the `None`/uncacheable result, and
`Except.ok (some key)` a computed cache key (the canonical sorted item
list standing for the sha512 hexdigest computed from it). -/
def keyFromArgs (f : Handler) (userSensitive : Nat) (languageSensitive : Bool)
    (evaluatedArgs : List String) (path : String) (args : List Value)
    (kwargs : List (String × Value)) (ctx : ReqCtx) : Except KErr (Option CacheKey) :=
  if f.defaults.length > f.argsOrder.length then .error .indexError
  else
    match applyKwargs evaluatedArgs
        (posLoop evaluatedArgs (f.argsOrder.zip args) ([], defaultsDict f)).1 kwargs
        (posLoop evaluatedArgs (f.argsOrder.zip args) ([], defaultsDict f)).2 with
    | .error e => .error e
    | .ok res2 => .ok (keyTail userSensitive languageSensitive path ctx f.argsOrder res2)

/-- True when some keyword argument is allowlisted and was also supplied
positionally — exactly the condition under which the kwargs loop raises. -/
def hasDuplicateArg (f : Handler) (ea : List String) (args : List Value)
    (kwargs : List (String × Value)) : Bool :=
  kwargs.any fun p =>
    decide (p.1 ∈ ea) && decide (p.1 ∈ (posLoop ea (f.argsOrder.zip args) ([], defaultsDict f)).1)

/-- Two positional argument lists agree on every allowlisted declared
parameter position (same value or both absent). -/
def agreeOnEvaluated (argsOrder ea : List String) (args args' : List Value) : Bool :=
  (List.range argsOrder.length).all fun i =>
    match argsOrder.get? i with
    | some name => !(decide (name ∈ ea)) || decide (args.get? i = args'.get? i)
    | Option.none => true

theorem mem_keysOf_dinsert (d : Dict) (k : String) (v : Value) (x : String) :
    x ∈ keysOf (dinsert d k v) ↔ x ∈ keysOf d ∨ x = k := by
  induction d with
  | nil => simp [dinsert, keysOf]
  | cons p d ih =>
    rcases eq_or_ne p.1 k with hpk | hpk
    · rw [show dinsert (p :: d) k v = (k, v) :: d from by simp [dinsert, hpk]]
      simp only [keysOf, List.map_cons, List.mem_cons, hpk]
      tauto
    · simp only [dinsert, if_neg hpk, keysOf, List.map_cons, List.mem_cons] at ih ⊢
      rw [ih]
      tauto

theorem nodupKeys_dinsert (d : Dict) (k : String) (v : Value) (h : NodupKeys d) :
    NodupKeys (dinsert d k v) := by
  induction d with
  | nil => simp [dinsert, NodupKeys, keysOf]
  | cons p d ih =>
    unfold NodupKeys keysOf at h
    simp only [List.map_cons, List.nodup_cons] at h
    rcases eq_or_ne p.1 k with hpk | hpk
    · unfold NodupKeys keysOf
      simp only [dinsert, if_pos hpk, List.map_cons, List.nodup_cons]
      refine ⟨?_, h.2⟩
      rw [← hpk]
      exact h.1
    · have ihd := ih h.2
      unfold NodupKeys keysOf
      simp only [dinsert, if_neg hpk, List.map_cons, List.nodup_cons]
      refine ⟨?_, ihd⟩
      intro hmem
      rcases (mem_keysOf_dinsert d k v p.1).mp hmem with hm | hm
      · exact h.1 hm
      · exact hpk hm

theorem pair_mem_dinsert_self (d : Dict) (k : String) (v : Value) :
    (k, v) ∈ dinsert d k v := by
  induction d with
  | nil => simp [dinsert]
  | cons p d ih =>
    rcases eq_or_ne p.1 k with hpk | hpk
    · simp [dinsert, hpk]
    · simp only [dinsert, if_neg hpk]
      exact List.mem_cons_of_mem _ ih

theorem pair_mem_dinsert_ne (d : Dict) (k k' : String) (v v' : Value) (hne : k ≠ k') :
    ((k, v) ∈ dinsert d k' v' ↔ (k, v) ∈ d) := by
  induction d with
  | nil =>
    simp only [dinsert, List.mem_singleton, List.not_mem_nil, iff_false]
    intro h
    exact hne (congrArg Prod.fst h)
  | cons p d ih =>
    rcases eq_or_ne p.1 k' with hpk | hpk
    · simp only [dinsert, if_pos hpk, List.mem_cons]
      constructor
      · rintro (h | h)
        · exact absurd (congrArg Prod.fst h) hne
        · exact Or.inr h
      · rintro (h | h)
        · exact absurd ((congrArg Prod.fst h).trans hpk) hne
        · exact Or.inr h
    · simp only [dinsert, if_neg hpk, List.mem_cons, ih]

theorem nodupKeys_eq_of_mem (d : Dict) (k : String) (v1 v2 : Value) (h : NodupKeys d)
    (h1 : (k, v1) ∈ d) (h2 : (k, v2) ∈ d) : v1 = v2 := by
  induction d with
  | nil => cases h1
  | cons p d ih =>
    have hnd : p.1 ∉ keysOf d ∧ NodupKeys d := by
      unfold NodupKeys keysOf at h ⊢
      simpa using h
    rcases List.mem_cons.mp h1 with h1' | h1' <;> rcases List.mem_cons.mp h2 with h2' | h2'
    · rw [← h1'] at h2'
      exact (congrArg Prod.snd h2').symm
    · exfalso
      apply hnd.1
      have hk : p.1 = k := (congrArg Prod.fst h1').symm
      rw [hk]
      exact List.mem_map_of_mem Prod.fst h2'
    · exfalso
      apply hnd.1
      have hk : p.1 = k := (congrArg Prod.fst h2').symm
      rw [hk]
      exact List.mem_map_of_mem Prod.fst h1'
    · exact ih hnd.2 h1' h2'

theorem nodupKeys_foldl_dinsert (l : List (String × Value)) (d : Dict) (h : NodupKeys d) :
    NodupKeys (l.foldl (fun d p => dinsert d p.1 p.2) d) := by
  induction l generalizing d with
  | nil => exact h
  | cons p l ih => exact ih _ (nodupKeys_dinsert d p.1 p.2 h)

theorem nodupKeys_defaultsDict (f : Handler) : NodupKeys (defaultsDict f) :=
  nodupKeys_foldl_dinsert _ [] (by simp [NodupKeys, keysOf])

theorem nodupKeys_posLoop (ea : List String) (l : List (String × Value))
    (st : List String × Dict) (h : NodupKeys st.2) : NodupKeys (posLoop ea l st).2 := by
  induction l generalizing st with
  | nil => exact h
  | cons p l ih =>
    obtain ⟨name, v⟩ := p
    by_cases hmem : name ∈ ea
    · simp only [posLoop, if_pos hmem]
      exact ih _ (nodupKeys_dinsert st.2 name v h)
    · simp only [posLoop, if_neg hmem]
      exact ih _ h

theorem nodupKeys_applyKwargs (ea setArgs : List String) (l : List (String × Value))
    (d d' : Dict) (hok : applyKwargs ea setArgs l d = .ok d') (h : NodupKeys d) :
    NodupKeys d' := by
  induction l generalizing d with
  | nil =>
    simp only [applyKwargs] at hok
    cases hok
    exact h
  | cons p l ih =>
    obtain ⟨k, v⟩ := p
    by_cases hk : k ∈ ea
    · by_cases hs : k ∈ setArgs
      · simp [applyKwargs, hk, hs] at hok
      · simp only [applyKwargs, if_pos hk, if_neg hs] at hok
        exact ih _ hok (nodupKeys_dinsert d k v h)
    · simp only [applyKwargs, if_neg hk] at hok
      exact ih _ hok h

theorem mem_keysOf_foldl_dinsert (l : List (String × Value)) (d : Dict) (x : String)
    (h : x ∈ keysOf (l.foldl (fun d p => dinsert d p.1 p.2) d)) :
    x ∈ keysOf d ∨ x ∈ l.map Prod.fst := by
  induction l generalizing d with
  | nil => exact Or.inl h
  | cons p l ih =>
    rcases ih _ h with h' | h'
    · rcases (mem_keysOf_dinsert d p.1 p.2 x).mp h' with h'' | h''
      · exact Or.inl h''
      · exact Or.inr (by simp [h''])
    · exact Or.inr (List.mem_cons_of_mem _ h')

theorem mem_keysOf_posLoop (ea : List String) (l : List (String × Value))
    (st : List String × Dict) (x : String) (h : x ∈ keysOf (posLoop ea l st).2) :
    x ∈ keysOf st.2 ∨ x ∈ l.map Prod.fst := by
  induction l generalizing st with
  | nil => exact Or.inl h
  | cons p l ih =>
    obtain ⟨name, v⟩ := p
    by_cases hmem : name ∈ ea
    · simp only [posLoop, if_pos hmem] at h
      rcases ih _ h with h' | h'
      · rcases (mem_keysOf_dinsert st.2 name v x).mp h' with h'' | h''
        · exact Or.inl h''
        · exact Or.inr (by simp [h''])
      · exact Or.inr (List.mem_cons_of_mem _ h')
    · simp only [posLoop, if_neg hmem] at h
      rcases ih _ h with h' | h'
      · exact Or.inl h'
      · exact Or.inr (List.mem_cons_of_mem _ h')

theorem mem_keysOf_applyKwargs (ea setArgs : List String) (l : List (String × Value))
    (d d' : Dict) (hok : applyKwargs ea setArgs l d = .ok d') (x : String)
    (h : x ∈ keysOf d') : x ∈ keysOf d ∨ x ∈ l.map Prod.fst := by
  induction l generalizing d with
  | nil =>
    simp only [applyKwargs] at hok
    cases hok
    exact Or.inl h
  | cons p l ih =>
    obtain ⟨k, v⟩ := p
    by_cases hk : k ∈ ea
    · by_cases hs : k ∈ setArgs
      · simp [applyKwargs, hk, hs] at hok
      · simp only [applyKwargs, if_pos hk, if_neg hs] at hok
        rcases ih _ hok with h' | h'
        · rcases (mem_keysOf_dinsert d k v x).mp h' with h'' | h''
          · exact Or.inl h''
          · exact Or.inr (by simp [h''])
        · exact Or.inr (List.mem_cons_of_mem _ h')
    · simp only [applyKwargs, if_neg hk] at hok
      rcases ih _ hok with h' | h'
      · exact Or.inl h'
      · exact Or.inr (List.mem_cons_of_mem _ h')

theorem posLoop_setArgs_mono (ea : List String) (l : List (String × Value))
    (st : List String × Dict) (x : String) (h : x ∈ st.1) : x ∈ (posLoop ea l st).1 := by
  induction l generalizing st with
  | nil => exact h
  | cons p l ih =>
    obtain ⟨name, v⟩ := p
    by_cases hmem : name ∈ ea
    · simp only [posLoop, if_pos hmem]
      exact ih _ (by simp [h])
    · simp only [posLoop, if_neg hmem]
      exact ih _ h

theorem mem_setArgs_posLoop (ea : List String) (o : List String) (a : List Value)
    (st : List String × Dict) (i : Nat) (name : String) (hi : o.get? i = some name)
    (hia : i < a.length) (hea : name ∈ ea) : name ∈ (posLoop ea (o.zip a) st).1 := by
  induction o generalizing a i st with
  | nil => simp at hi
  | cons n o ih =>
    cases a with
    | nil => simp at hia
    | cons x a =>
      cases i with
      | zero =>
        simp only [List.get?] at hi
        cases hi
        simp only [List.zip_cons_cons, posLoop, if_pos hea]
        exact posLoop_setArgs_mono ea _ _ name (by simp)
      | succ i =>
        simp only [List.get?] at hi
        have hia' : i < a.length := by simpa using hia
        simp only [List.zip_cons_cons, posLoop]
        by_cases hmem : n ∈ ea
        · rw [if_pos hmem]
          exact ih a _ i hi hia'
        · rw [if_neg hmem]
          exact ih a _ i hi hia'

theorem applyKwargs_error_of_dup (ea setArgs : List String) (l : List (String × Value))
    (d : Dict) (name : String) (v : Value) (hs : name ∈ setArgs) (hl : (name, v) ∈ l)
    (hea : name ∈ ea) : ∃ m, applyKwargs ea setArgs l d = .error (.assertionError m) := by
  induction l generalizing d with
  | nil => cases hl
  | cons p l ih =>
    obtain ⟨k, w⟩ := p
    by_cases hk : k ∈ ea
    · by_cases hks : k ∈ setArgs
      · exact ⟨k, by simp [applyKwargs, hk, hks]⟩
      · rcases List.mem_cons.mp hl with h | h
        · cases h
          exact absurd hs hks
        · simp only [applyKwargs, if_pos hk, if_neg hks]
          exact ih _ h
    · rcases List.mem_cons.mp hl with h | h
      · cases h
        exact absurd hea hk
      · simp only [applyKwargs, if_neg hk]
        exact ih _ h

theorem applyKwargs_ok_of_no_dup (ea setArgs : List String) (l : List (String × Value))
    (d : Dict) (h : ∀ p ∈ l, ¬(p.1 ∈ ea ∧ p.1 ∈ setArgs)) :
    ∃ d', applyKwargs ea setArgs l d = .ok d' := by
  induction l generalizing d with
  | nil => exact ⟨d, rfl⟩
  | cons p l ih =>
    obtain ⟨k, v⟩ := p
    by_cases hk : k ∈ ea
    · have hks : k ∉ setArgs := fun hs => h (k, v) (List.mem_cons_self _ _) ⟨hk, hs⟩
      simp only [applyKwargs, if_pos hk, if_neg hks]
      exact ih _ fun q hq => h q (List.mem_cons_of_mem _ hq)
    · simp only [applyKwargs, if_neg hk]
      exact ih _ fun q hq => h q (List.mem_cons_of_mem _ hq)

theorem applyKwargs_filter (ea setArgs : List String) (l : List (String × Value)) (d : Dict) :
    applyKwargs ea setArgs l d =
      applyKwargs ea setArgs (l.filter fun p => decide (p.1 ∈ ea)) d := by
  induction l generalizing d with
  | nil => rfl
  | cons p l ih =>
    obtain ⟨k, v⟩ := p
    by_cases hk : k ∈ ea
    · by_cases hks : k ∈ setArgs
      · simp [applyKwargs, hk, hks, List.filter_cons]
      · rw [show List.filter (fun p => decide (p.1 ∈ ea)) ((k, v) :: l) =
              (k, v) :: List.filter (fun p => decide (p.1 ∈ ea)) l from by
            simp [List.filter_cons, hk]]
        simp only [applyKwargs, if_pos hk, if_neg hks]
        exact ih _
    · simp only [List.filter_cons]
      rw [if_neg (by simpa using hk)]
      simp only [applyKwargs, if_neg hk]
      exact ih _

theorem posLoop_congr (ea : List String) (o : List String) (a a' : List Value)
    (st : List String × Dict)
    (h : ∀ i name, o.get? i = some name → name ∈ ea → a.get? i = a'.get? i) :
    posLoop ea (o.zip a) st = posLoop ea (o.zip a') st := by
  induction o generalizing a a' st with
  | nil => rfl
  | cons n o ih =>
    cases a with
    | nil =>
      cases a' with
      | nil => rfl
      | cons x' t' =>
        have hn : n ∉ ea := by
          intro hn
          have := h 0 n rfl hn
          simp at this
        have htl : ∀ i name, o.get? i = some name → name ∈ ea →
            (List.nil (α := Value)).get? i = t'.get? i := by
          intro i name hi hname
          have := h (i + 1) name (by simpa using hi) hname
          simpa using this
        have h2 := ih ([] : List Value) t' st htl
        rw [List.zip_nil_right] at h2
        simp only [List.zip] at h2
        simp only [List.zip_nil_right, List.zip_cons_cons, posLoop, if_neg hn]
        rw [← h2]
        rfl
    | cons x t =>
      cases a' with
      | nil =>
        have hn : n ∉ ea := by
          intro hn
          have := h 0 n rfl hn
          simp at this
        have htl : ∀ i name, o.get? i = some name → name ∈ ea →
            t.get? i = (List.nil (α := Value)).get? i := by
          intro i name hi hname
          have := h (i + 1) name (by simpa using hi) hname
          simpa using this
        have h2 := ih t ([] : List Value) st htl
        rw [List.zip_nil_right] at h2
        simp only [List.zip] at h2
        simp only [List.zip_nil_right, List.zip_cons_cons, posLoop, if_neg hn]
        rw [h2]
        rfl
      | cons x' t' =>
        have htl : ∀ i name, o.get? i = some name → name ∈ ea → t.get? i = t'.get? i := by
          intro i name hi hname
          have := h (i + 1) name (by simpa using hi) hname
          simpa using this
        by_cases hn : n ∈ ea
        · have hx : x = x' := by simpa using h 0 n rfl hn
          subst hx
          simp only [List.zip_cons_cons, posLoop, if_pos hn]
          exact ih _ _ _ htl
        · simp only [List.zip_cons_cons, posLoop, if_neg hn]
          exact ih _ _ _ htl

theorem agreeOnEvaluated_iff (o ea : List String) (a a' : List Value) :
    agreeOnEvaluated o ea a a' = true ↔
      ∀ i name, o.get? i = some name → name ∈ ea → a.get? i = a'.get? i := by
  unfold agreeOnEvaluated
  rw [List.all_eq_true]
  constructor
  · intro h i name hi hname
    have hlen : i < o.length := by
      rcases List.get?_eq_some.mp hi with ⟨hl, -⟩
      exact hl
    have := h i (List.mem_range.mpr hlen)
    rw [hi] at this
    rcases Bool.or_eq_true_iff.mp this with hfalse | hdec
    · exact absurd hname (by simpa using hfalse)
    · exact of_decide_eq_true hdec
  · intro h i _
    cases hget : o.get? i with
    | none => rfl
    | some name =>
      by_cases hname : name ∈ ea
      · have := h i name hget hname
        rw [List.get?_eq_getElem?, List.get?_eq_getElem?] at this
        simp [this]
      · simp [hname]

/-- C2: a handler parameter outside the `evaluatedArgs` allowlist is
ignored for key purposes. Whenever two invocations agree on the values at
allowlisted parameter positions and on the allowlisted keyword arguments,
`keyFromArgs` gives the same outcome — the same key, the same `None`, or
the same raised error — no matter how non-allowlisted parameters are
supplied (positionally or by keyword), omitted, or changed. -/
theorem keyFromArgs_ignores_non_evaluated (f : Handler) (us : Nat) (ls : Bool)
    (ea : List String) (path : String) (args args' : List Value)
    (kwargs kwargs' : List (String × Value)) (ctx : ReqCtx)
    (h1 : agreeOnEvaluated f.argsOrder ea args args' = true)
    (h2 : kwargs.filter (fun p => decide (p.1 ∈ ea)) =
      kwargs'.filter (fun p => decide (p.1 ∈ ea))) :
    keyFromArgs f us ls ea path args kwargs ctx =
      keyFromArgs f us ls ea path args' kwargs' ctx := by
  unfold keyFromArgs
  by_cases hdef : f.defaults.length > f.argsOrder.length
  · rw [if_pos hdef, if_pos hdef]
  · rw [if_neg hdef, if_neg hdef]
    have hpos := posLoop_congr ea f.argsOrder args args' ([], defaultsDict f)
      ((agreeOnEvaluated_iff _ _ _ _).mp h1)
    rw [hpos, applyKwargs_filter ea _ kwargs, applyKwargs_filter ea _ kwargs', h2]

/-- Witness for C2: `f(self, a, b="x")` with allowlist `["a"]`; supplying
the non-allowlisted `b` positionally with a changed value and again by
keyword does not change the computed key. -/
theorem keyFromArgs_ignores_non_evaluated_witness :
    keyFromArgs ⟨["a", "b"], [Value.str "x"], fun _ _ => (Value.str "r", "text/html")⟩
        0 false ["a"] "/p" [Value.int 1] []
        ⟨false, false, 0, [], Option.none, "en", Option.none, some "v1"⟩ =
      keyFromArgs ⟨["a", "b"], [Value.str "x"], fun _ _ => (Value.str "r", "text/html")⟩
        0 false ["a"] "/p" [Value.int 1, Value.str "y"] [("b", Value.str "z")]
        ⟨false, false, 0, [], Option.none, "en", Option.none, some "v1"⟩ :=
  keyFromArgs_ignores_non_evaluated _ 0 false ["a"] "/p" _ _ _ _ _ (by decide) (by decide)

theorem finalize_some_shape (o : List String) (path av : String) (d5 : Dict) (x : Value)
    (h5 : ("__user", x) ∈ d5 ∧ NodupKeys d5) (k : CacheKey)
    (hk : finalize o path av d5 = some k) :
    ∃ d2, k = sortPairs d2 ∧ ("__user", x) ∈ d2 ∧ NodupKeys d2 := by
  unfold finalize at hk
  by_cases hc : (o.all fun y =>
      decide (y ∈ keysOf (dinsert (dinsert d5 "__path" (.str path)) "__appVersion" (.str av)))) = true
  · rw [if_pos hc] at hk
    refine ⟨dinsert (dinsert d5 "__path" (.str path)) "__appVersion" (.str av),
      (Option.some_inj.mp hk).symm, ?_, ?_⟩
    · exact (pair_mem_dinsert_ne _ "__user" "__appVersion" x _ (by decide)).mpr
        ((pair_mem_dinsert_ne _ "__user" "__path" x _ (by decide)).mpr h5.1)
    · exact nodupKeys_dinsert _ _ _ (nodupKeys_dinsert _ _ _ h5.2)
  · rw [if_neg hc] at hk
    cases hk

theorem keyTail_key_mem (us : Nat) (ls : Bool) (path : String) (ctx : ReqCtx)
    (o : List String) (d d3 : Dict) (x : Value) (k : CacheKey)
    (hau : afterUser us ctx.user d = some d3)
    (hmem : ("__user", x) ∈ d3) (hnd : NodupKeys d3)
    (hk : keyTail us ls path ctx o d = some k) :
    ∃ d2, k = sortPairs d2 ∧ ("__user", x) ∈ d2 ∧ NodupKeys d2 := by
  unfold keyTail at hk
  rw [hau] at hk
  have h4 : ("__user", x) ∈ afterLang ls ctx.language d3 ∧
      NodupKeys (afterLang ls ctx.language d3) := by
    cases ls with
    | false => exact ⟨hmem, hnd⟩
    | true =>
      exact ⟨(pair_mem_dinsert_ne d3 "__user" "__lang" x _ (by decide)).mpr hmem,
        nodupKeys_dinsert d3 "__lang" _ hnd⟩
  cases henv : ctx.cacheEnvironmentKey with
  | none =>
    rw [henv] at hk
    exact finalize_some_shape o path _ _ x h4 k hk
  | some oe =>
    cases oe with
    | none =>
      rw [henv] at hk
      simp [afterEnv] at hk
    | some v =>
      rw [henv] at hk
      refine finalize_some_shape o path _ _ x
        ⟨(pair_mem_dinsert_ne _ "__user" "_cacheEnvironment" x _ (by decide)).mpr h4.1,
          nodupKeys_dinsert _ _ _ h4.2⟩ k hk

theorem sortPairs_ne_of_user_ne (da db : Dict) (x y : Value) (hx : ("__user", x) ∈ da)
    (hy : ("__user", y) ∈ db) (hnb : NodupKeys db) (hxy : x ≠ y) :
    sortPairs da ≠ sortPairs db := by
  intro heq
  have hxa : ("__user", x) ∈ sortPairs da :=
    (List.perm_insertionSort keyOrder da).mem_iff.mpr hx
  rw [heq] at hxa
  have hxb : ("__user", x) ∈ db := (List.perm_insertionSort keyOrder db).mem_iff.mp hxa
  exact hxy (nodupKeys_eq_of_mem db "__user" x y hnb hxb hy)

theorem keyFromArgs_key_user_mem (f : Handler) (us : Nat) (ls : Bool) (ea : List String)
    (path : String) (args : List Value) (kwargs : List (String × Value)) (ctx : ReqCtx)
    (x : Value) (k : CacheKey)
    (hau : ∀ d, afterUser us ctx.user d = some (dinsert d "__user" x))
    (hk : keyFromArgs f us ls ea path args kwargs ctx = .ok (some k)) :
    ∃ d2, k = sortPairs d2 ∧ ("__user", x) ∈ d2 ∧ NodupKeys d2 := by
  unfold keyFromArgs at hk
  by_cases hdef : f.defaults.length > f.argsOrder.length
  · rw [if_pos hdef] at hk
    cases hk
  · rw [if_neg hdef] at hk
    cases happ : applyKwargs ea (posLoop ea (f.argsOrder.zip args) ([], defaultsDict f)).1 kwargs
        (posLoop ea (f.argsOrder.zip args) ([], defaultsDict f)).2 with
    | error e =>
      rw [happ] at hk
      simp at hk
    | ok res2 =>
      rw [happ] at hk
      simp only [Except.ok.injEq] at hk
      have hnd2 : NodupKeys res2 := nodupKeys_applyKwargs ea _ kwargs _ res2 happ
        (nodupKeys_posLoop ea _ _ (nodupKeys_defaultsDict f))
      exact keyTail_key_mem us ls path ctx f.argsOrder res2 (dinsert res2 "__user" x) x k
        (hau res2) (pair_mem_dinsert_self res2 "__user" x)
        (nodupKeys_dinsert res2 "__user" x hnd2) hk

/-- C5: supplying an allowlisted parameter both positionally (at its
declared position) and again by keyword makes `keyFromArgs` raise the
duplicate-argument `AssertionError`; the error is raised to the caller
(the result is an error, never a key, never `None`). The hypothesis on
the defaults length is the CPython invariant that a callable has at most
as many default values as parameters after `self`. -/
theorem keyFromArgs_duplicate_raises (f : Handler) (us : Nat) (ls : Bool) (ea : List String)
    (path : String) (args : List Value) (kwargs : List (String × Value)) (ctx : ReqCtx)
    (i : Nat) (name : String) (v : Value)
    (hdef : f.defaults.length ≤ f.argsOrder.length)
    (hi : f.argsOrder.get? i = some name) (hia : i < args.length)
    (hea : name ∈ ea) (hkw : (name, v) ∈ kwargs) :
    ∃ m, keyFromArgs f us ls ea path args kwargs ctx = .error (.assertionError m) := by
  have hset : name ∈ (posLoop ea (f.argsOrder.zip args) ([], defaultsDict f)).1 :=
    mem_setArgs_posLoop ea f.argsOrder args _ i name hi hia hea
  rcases applyKwargs_error_of_dup ea _ kwargs
      (posLoop ea (f.argsOrder.zip args) ([], defaultsDict f)).2 name v hset hkw hea with ⟨m, hm⟩
  refine ⟨m, ?_⟩
  unfold keyFromArgs
  rw [if_neg (not_lt.mpr hdef), hm]

/-- Witness for C5: `f(self, a)` with allowlist `["a"]`, called as
`f(1, a=2)`, raises the duplicate AssertionError. -/
theorem keyFromArgs_duplicate_raises_witness :
    ∃ m, keyFromArgs ⟨["a"], [], fun _ _ => (Value.str "r", "t")⟩ 0 false ["a"] "/p"
        [Value.int 1] [("a", Value.int 2)]
        ⟨false, false, 0, [], Option.none, "en", Option.none, some "v1"⟩ =
      .error (.assertionError m) :=
  keyFromArgs_duplicate_raises ⟨["a"], [], fun _ _ => (Value.str "r", "t")⟩ 0 false ["a"] "/p"
    [Value.int 1] [("a", Value.int 2)]
    ⟨false, false, 0, [], Option.none, "en", Option.none, some "v1"⟩ 0 "a" (Value.int 2)
    (by decide) (by decide) (by decide) (by decide) (by decide)

/-- C3 counterexample: under user-sensitivity mode 1 with an
authenticated caller, the claim says the invocation yields uncacheable
(`None`); when an allowlisted argument is supplied both positionally and
by keyword, the kwargs loop raises the duplicate AssertionError before
the user check is ever reached, so the result is an error, not `None`. -/
theorem keyFromArgs_mode1_counterexample :
    keyFromArgs ⟨["a"], [], fun _ _ => (Value.str "r", "t")⟩ 1 false ["a"] "/p"
        [Value.int 1] [("a", Value.int 2)]
        ⟨false, false, 0, [], some (Value.str "alice"), "en", Option.none, some "v1"⟩ =
      .error (.assertionError "a") := by
  rfl

/-- C3 (amended): for two invocations of `keyFromArgs` differing only in
the current caller identity: under mode 0 the outcomes are identical;
under mode 1, provided the invocation raises no duplicate-argument error
(and the signature is well formed, defaults not outnumbering parameters),
an authenticated caller yields uncacheable (`None`); under mode 2 any two
authenticated callers give the same outcome, and a key produced with an
authenticated caller always differs from a key produced with no caller;
under mode 3 distinct caller identifiers never produce the same key. -/
theorem keyFromArgs_user_sensitivity (f : Handler) (ls : Bool) (ea : List String)
    (path : String) (args : List Value) (kwargs : List (String × Value)) (c : ReqCtx)
    (u1 u2 : Option Value) :
    (keyFromArgs f 0 ls ea path args kwargs { c with user := u1 } =
      keyFromArgs f 0 ls ea path args kwargs { c with user := u2 }) ∧
    (f.defaults.length ≤ f.argsOrder.length → hasDuplicateArg f ea args kwargs = false →
      u1.isSome = true →
      keyFromArgs f 1 ls ea path args kwargs { c with user := u1 } = .ok Option.none) ∧
    (u1.isSome = true → u2.isSome = true →
      keyFromArgs f 2 ls ea path args kwargs { c with user := u1 } =
        keyFromArgs f 2 ls ea path args kwargs { c with user := u2 }) ∧
    (∀ v1 k1 k2, u1 = some v1 →
      keyFromArgs f 2 ls ea path args kwargs { c with user := u1 } = .ok (some k1) →
      keyFromArgs f 2 ls ea path args kwargs { c with user := Option.none } = .ok (some k2) →
      k1 ≠ k2) ∧
    (∀ v1 v2 k1 k2, u1 = some v1 → u2 = some v2 → v1 ≠ v2 →
      keyFromArgs f 3 ls ea path args kwargs { c with user := u1 } = .ok (some k1) →
      keyFromArgs f 3 ls ea path args kwargs { c with user := u2 } = .ok (some k2) →
      k1 ≠ k2) := by
  refine ⟨rfl, ?_, ?_, ?_, ?_⟩
  · intro hdef hdup hu1
    rcases Option.isSome_iff_exists.mp hu1 with ⟨v, hv⟩
    subst hv
    unfold keyFromArgs
    rw [if_neg (not_lt.mpr hdef)]
    have hnodup : ∀ p ∈ kwargs,
        ¬(p.1 ∈ ea ∧ p.1 ∈ (posLoop ea (f.argsOrder.zip args) ([], defaultsDict f)).1) := by
      intro p hp hand
      unfold hasDuplicateArg at hdup
      rw [List.any_eq_false] at hdup
      have := hdup p hp
      exact this (by simp [hand.1, hand.2])
    rcases applyKwargs_ok_of_no_dup ea _ kwargs _ hnodup with ⟨d', hd'⟩
    rw [hd']
    rfl
  · intro hu1 hu2
    rcases Option.isSome_iff_exists.mp hu1 with ⟨v1, hv1⟩
    rcases Option.isSome_iff_exists.mp hu2 with ⟨v2, hv2⟩
    subst hv1
    subst hv2
    rfl
  · intro v1 k1 k2 hu1 hk1 hk2
    subst hu1
    rcases keyFromArgs_key_user_mem f 2 ls ea path args kwargs { c with user := some v1 }
      (Value.str "__ISUSER") k1 (fun d => rfl) hk1 with ⟨d2a, hka, hmema, -⟩
    rcases keyFromArgs_key_user_mem f 2 ls ea path args kwargs { c with user := Option.none }
      Value.none k2 (fun d => rfl) hk2 with ⟨d2b, hkb, hmemb, hnodb⟩
    rw [hka, hkb]
    exact sortPairs_ne_of_user_ne d2a d2b _ _ hmema hmemb hnodb (by simp)
  · intro v1 v2 k1 k2 hu1 hu2 hvne hk1 hk2
    subst hu1
    subst hu2
    rcases keyFromArgs_key_user_mem f 3 ls ea path args kwargs { c with user := some v1 }
      v1 k1 (fun d => rfl) hk1 with ⟨d2a, hka, hmema, -⟩
    rcases keyFromArgs_key_user_mem f 3 ls ea path args kwargs { c with user := some v2 }
      v2 k2 (fun d => rfl) hk2 with ⟨d2b, hkb, hmemb, hnodb⟩
    rw [hka, hkb]
    exact sortPairs_ne_of_user_ne d2a d2b _ _ hmema hmemb hnodb hvne

/-- Witness for the amended C3: with user-sensitivity mode 3, the caller
`alice` and the caller `bob` produce different cache keys at an otherwise
identical invocation. -/
theorem keyFromArgs_user_sensitivity_witness :
    ([("__appVersion", Value.str "v1"), ("__path", Value.str "/p"),
        ("__user", Value.str "alice")] : CacheKey) ≠
      [("__appVersion", Value.str "v1"), ("__path", Value.str "/p"),
        ("__user", Value.str "bob")] :=
  (keyFromArgs_user_sensitivity ⟨[], [], fun _ _ => (Value.str "r", "t")⟩ false [] "/p" [] []
      ⟨false, false, 0, [], Option.none, "en", Option.none, some "v1"⟩
      (some (Value.str "alice")) (some (Value.str "bob"))).2.2.2.2
    (Value.str "alice") (Value.str "bob")
    [("__appVersion", Value.str "v1"), ("__path", Value.str "/p"), ("__user", Value.str "alice")]
    [("__appVersion", Value.str "v1"), ("__path", Value.str "/p"), ("__user", Value.str "bob")]
    rfl rfl (by decide) (by rfl) (by rfl)

theorem mem_keysOf_afterUser (us : Nat) (u : Option Value) (d d3 : Dict)
    (h : afterUser us u d = some d3) (x : String) (hx : x ∈ keysOf d3) :
    x ∈ keysOf d ∨ x = "__user" := by
  unfold afterUser at h
  by_cases h1 : (us == 1 && u.isSome) = true
  · rw [if_pos h1] at h
    cases h
  · rw [if_neg h1] at h
    injection h with h
    rw [← h] at hx
    by_cases h2 : (us == 2) = true
    · rw [if_pos h2] at hx
      exact (mem_keysOf_dinsert _ _ _ _).mp hx
    · rw [if_neg h2] at hx
      by_cases h3 : (us == 3) = true
      · rw [if_pos h3] at hx
        exact (mem_keysOf_dinsert _ _ _ _).mp hx
      · rw [if_neg h3] at hx
        exact Or.inl hx

theorem mem_keysOf_afterLang (ls : Bool) (lang : String) (d : Dict) (x : String)
    (hx : x ∈ keysOf (afterLang ls lang d)) : x ∈ keysOf d ∨ x = "__lang" := by
  cases ls with
  | false => exact Or.inl hx
  | true => exact (mem_keysOf_dinsert _ _ _ _).mp hx

theorem mem_keysOf_afterEnv (ek : Option (Option Value)) (d d5 : Dict)
    (h : afterEnv ek d = some d5) (x : String) (hx : x ∈ keysOf d5) :
    x ∈ keysOf d ∨ x = "_cacheEnvironment" := by
  cases ek with
  | none =>
    injection h with h
    rw [← h] at hx
    exact Or.inl hx
  | some oe =>
    cases oe with
    | none => cases h
    | some v =>
      injection h with h
      rw [← h] at hx
      exact (mem_keysOf_dinsert _ _ _ _).mp hx

theorem mem_map_fst_zip_take {α β : Type} (A : List α) (B : List β) (x : α)
    (h : x ∈ (A.zip B).map Prod.fst) : x ∈ A.take B.length := by
  induction A generalizing B with
  | nil => simp [List.zip_nil_left] at h
  | cons a A ih =>
    cases B with
    | nil => simp [List.zip_nil_right] at h
    | cons b B =>
      simp only [List.zip_cons_cons, List.map_cons, List.mem_cons] at h
      rcases h with h | h
      · simp [h]
      · simp only [List.length_cons, List.take_succ_cons, List.mem_cons]
        exact Or.inr (ih B h)

theorem not_mem_take_of_index_ge (o : List String) (p : String) (i n : Nat)
    (hnodup : o.Nodup) (hi : o.get? i = some p) (hge : n ≤ i) : p ∉ o.take n := by
  intro hmem
  rcases List.mem_iff_get?.mp hmem with ⟨j, hj⟩
  have hjn : j < n := by
    rcases List.get?_eq_some.mp hj with ⟨hl, -⟩
    have := List.length_take n o ▸ hl
    omega
  rw [List.get?_take hjn] at hj
  have hij : i = j := by
    rcases List.get?_eq_some.mp hi with ⟨hl, -⟩
    exact List.get?_inj hl hnodup (hi.trans hj.symm)
  omega

theorem not_mem_drop_of_index_lt (o : List String) (p : String) (i n : Nat)
    (hnodup : o.Nodup) (hi : o.get? i = some p) (hlt : i < n) : p ∉ o.drop n := by
  intro hmem
  rcases List.mem_iff_get?.mp hmem with ⟨j, hj⟩
  rw [List.get?_drop] at hj
  have hij : i = n + j := by
    rcases List.get?_eq_some.mp hi with ⟨hl, -⟩
    exact List.get?_inj hl hnodup (hi.trans hj.symm)
  omega

/-- C6 counterexample: handler parameter `__path`, allowlisted, with no
default, no positional argument and no keyword argument — the claim says
`keyFromArgs` returns uncacheable (`None`); the code fills `res["__path"]`
from the request path before the completeness check, so the check passes
and a key is returned instead. (A duplicated allowlisted argument is a
second way to violate the claim: it raises instead of returning `None`.) -/
theorem keyFromArgs_missing_param_counterexample :
    keyFromArgs ⟨["__path"], [], fun _ _ => (Value.str "r", "t")⟩ 0 false ["__path"] "/x" [] []
        ⟨false, false, 0, [], Option.none, "en", Option.none, Option.none⟩ =
      .ok (some [("__appVersion", Value.str ""), ("__path", Value.str "/x")]) := by
  rfl

/-- C6 (amended): if an allowlisted declared parameter is covered by no
default, no positional argument and no keyword argument, then — provided
no allowlisted argument is duplicated (which raises instead), the
parameter's name does not start with an underscore (underscore names
collide with the reserved context keys; `enableCache` asserts allowlists
contain none), and the signature is well formed (distinct parameter
names, defaults not outnumbering parameters) — `keyFromArgs` returns
uncacheable (`None`), not a key and not an error. -/
theorem keyFromArgs_missing_param_none (f : Handler) (us : Nat) (ls : Bool) (ea : List String)
    (path : String) (args : List Value) (kwargs : List (String × Value)) (ctx : ReqCtx)
    (i : Nat) (p : String)
    (hnodupOrder : f.argsOrder.Nodup)
    (hdef : f.defaults.length ≤ f.argsOrder.length)
    (hdup : hasDuplicateArg f ea args kwargs = false)
    (hi : f.argsOrder.get? i = some p)
    (hpos : args.length ≤ i)
    (hnodefault : i < f.argsOrder.length - f.defaults.length)
    (hkw : p ∉ kwargs.map Prod.fst)
    (hea : p ∈ ea)
    (hus : p.data.head? ≠ some '_') :
    keyFromArgs f us ls ea path args kwargs ctx = .ok Option.none := by
  have hpu : p ≠ "__user" := fun h => hus (by rw [h]; rfl)
  have hpl : p ≠ "__lang" := fun h => hus (by rw [h]; rfl)
  have hpe : p ≠ "_cacheEnvironment" := fun h => hus (by rw [h]; rfl)
  have hpp : p ≠ "__path" := fun h => hus (by rw [h]; rfl)
  have hpa : p ≠ "__appVersion" := fun h => hus (by rw [h]; rfl)
  have hp_defaults : p ∉ keysOf (defaultsDict f) := by
    intro hmem
    rcases mem_keysOf_foldl_dinsert _ [] p hmem with h | h
    · simp [keysOf] at h
    · have h1 : p ∈ f.argsOrder.reverse.take f.defaults.reverse.length :=
        mem_map_fst_zip_take _ _ p h
      rw [List.length_reverse, List.take_reverse] at h1
      have h2 : p ∈ f.argsOrder.drop (f.argsOrder.length - f.defaults.length) := by
        simpa using h1
      exact not_mem_drop_of_index_lt f.argsOrder p i _ hnodupOrder hi hnodefault h2
  have hp_pos : p ∉ keysOf (posLoop ea (f.argsOrder.zip args) ([], defaultsDict f)).2 := by
    intro hmem
    rcases mem_keysOf_posLoop ea _ _ p hmem with h | h
    · exact hp_defaults h
    · have h1 : p ∈ f.argsOrder.take args.length := mem_map_fst_zip_take _ _ p h
      exact not_mem_take_of_index_ge f.argsOrder p i _ hnodupOrder hi hpos h1
  have hnodup : ∀ q ∈ kwargs,
      ¬(q.1 ∈ ea ∧ q.1 ∈ (posLoop ea (f.argsOrder.zip args) ([], defaultsDict f)).1) := by
    intro q hq hand
    unfold hasDuplicateArg at hdup
    rw [List.any_eq_false] at hdup
    exact hdup q hq (by simp [hand.1, hand.2])
  rcases applyKwargs_ok_of_no_dup ea _ kwargs _ hnodup with ⟨d', hd'⟩
  have hp_d' : p ∉ keysOf d' := by
    intro hmem
    rcases mem_keysOf_applyKwargs ea _ kwargs _ d' hd' p hmem with h | h
    · exact hp_pos h
    · exact hkw h
  have hpo : p ∈ f.argsOrder := List.mem_iff_get?.mpr ⟨i, hi⟩
  have hkt : keyTail us ls path ctx f.argsOrder d' = Option.none := by
    unfold keyTail
    cases hau : afterUser us ctx.user d' with
    | none => rfl
    | some d3 =>
      have hp3 : p ∉ keysOf d3 := by
        intro hm
        rcases mem_keysOf_afterUser us ctx.user d' d3 hau p hm with h | h
        · exact hp_d' h
        · exact hpu h
      have hp4 : p ∉ keysOf (afterLang ls ctx.language d3) := by
        intro hm
        rcases mem_keysOf_afterLang ls ctx.language d3 p hm with h | h
        · exact hp3 h
        · exact hpl h
      show (match afterEnv ctx.cacheEnvironmentKey (afterLang ls ctx.language d3) with
            | Option.none => (Option.none : Option CacheKey)
            | some d5 => finalize f.argsOrder path (appVersionOf ctx.currentVersionId) d5) =
          Option.none
      cases henv : afterEnv ctx.cacheEnvironmentKey (afterLang ls ctx.language d3) with
      | none => rfl
      | some d5 =>
        have hp5 : p ∉ keysOf d5 := by
          intro hm
          rcases mem_keysOf_afterEnv _ _ d5 henv p hm with h | h
          · exact hp4 h
          · exact hpe h
        show finalize f.argsOrder path (appVersionOf ctx.currentVersionId) d5 = Option.none
        have hcond : ¬ ((f.argsOrder.all fun x =>
            decide (x ∈ keysOf (dinsert (dinsert d5 "__path" (.str path)) "__appVersion"
              (.str (appVersionOf ctx.currentVersionId))))) = true) := by
          intro hall
          rw [List.all_eq_true] at hall
          have := of_decide_eq_true (hall p hpo)
          rcases (mem_keysOf_dinsert _ _ _ _).mp this with h | h
          · rcases (mem_keysOf_dinsert _ _ _ _).mp h with h' | h'
            · exact hp5 h'
            · exact hpp h'
          · exact hpa h
        unfold finalize
        rw [if_neg hcond]
  unfold keyFromArgs
  rw [if_neg (not_lt.mpr hdef), hd']
  show Except.ok (keyTail us ls path ctx f.argsOrder d') = Except.ok Option.none
  rw [hkt]

/-- Witness for the amended C6: `f(self, a, b)` with allowlist
`["a", "b"]`, called as `f(1)` — the allowlisted `b` is uncovered, so the
call is uncacheable. -/
theorem keyFromArgs_missing_param_none_witness :
    keyFromArgs ⟨["a", "b"], [], fun _ _ => (Value.str "r", "t")⟩ 0 false ["a", "b"] "/p"
        [Value.int 1] []
        ⟨false, false, 0, [], Option.none, "en", Option.none, some "v1"⟩ =
      .ok Option.none :=
  keyFromArgs_missing_param_none ⟨["a", "b"], [], fun _ _ => (Value.str "r", "t")⟩ 0 false
    ["a", "b"] "/p" [Value.int 1] []
    ⟨false, false, 0, [], Option.none, "en", Option.none, some "v1"⟩ 1 "b"
    (by decide) (by decide) (by decide) (by decide) (by decide) (by decide) (by decide)
    (by decide) (by decide)

/-- Configuration baked into a wrapped handler by
`wrapCallable/enableCache`. `maxCacheTime` is in the model's time unit
(`Option.none` = cache forever). -/
structure WrapConfig where
  urls : List String
  userSensitive : Nat
  languageSensitive : Bool
  evaluatedArgs : List String
  maxCacheTime : Option Int
deriving DecidableEq, Repr

/-- Observable outcome of one `wrapF` invocation: the returned body, the
outgoing content-type, whether the wrapped handler ran, the store after
the call, and whether the store was read (`db.Get`) or written
(`db.Put`). -/
structure WrapOutcome where
  result : Value
  responseContentType : String
  handlerInvoked : Bool
  store : Store
  storeRead : Bool
  storeWrote : Bool
deriving DecidableEq, Repr

/-- `db.Get(db.Key.from_path(viurCacheName, key))`, with
`EntityNotFoundError` as `Option.none`. -/
def storeGet (s : Store) (k : CacheKey) : Option CacheEntry := List.lookup k s

/-- `db.Put` of an entity named by `key`: unconditional overwrite. -/
def storePut (s : Store) (k : CacheKey) (e : CacheEntry) : Store :=
  (k, e) :: s.filter (fun p => !(p.1 == k))

/-- The logical path of the current invocation:
`offset = -len(request.args) or len(pathlist)` then
`"/" + "/".join(pathlist[:offset])` — with arguments present, that many
trailing segments are dropped; with none, the whole path list is used. -/
def derivedPath (ctx : ReqCtx) : String :=
  if ctx.reqArgsCount = 0 then "/" ++ String.intercalate "/" ctx.pathlist
  else "/" ++ String.intercalate "/" (ctx.pathlist.take (ctx.pathlist.length - ctx.reqArgsCount))

/-- `wrapF` from cache.py: bypass when caching is disabled globally or
per request; bypass for paths outside the configured urls; bypass when
the fingerprint is uncacheable; otherwise look the key up and either
serve the stored entry (when no max age is configured — `0` is falsy,
like `None` — or the entry is young enough) or run the handler and
write through. A raised duplicate-argument error propagates. -/
def wrapF (cfg : WrapConfig) (f : Handler) (ctx : ReqCtx) (now : Int) (store : Store)
    (args : List Value) (kwargs : List (String × Value)) : Except KErr WrapOutcome :=
  if ctx.disableCacheConf || ctx.reqDisableCache then
    .ok ⟨(f.run args kwargs).1, (f.run args kwargs).2, true, store, false, false⟩
  else if ¬ (derivedPath ctx ∈ cfg.urls) then
    .ok ⟨(f.run args kwargs).1, (f.run args kwargs).2, true, store, false, false⟩
  else
    match keyFromArgs f cfg.userSensitive cfg.languageSensitive cfg.evaluatedArgs
        (derivedPath ctx) args kwargs ctx with
    | .error e => .error e
    | .ok Option.none =>
      .ok ⟨(f.run args kwargs).1, (f.run args kwargs).2, true, store, false, false⟩
    | .ok (some key) =>
      match storeGet store key with
      | some entry =>
        if (match cfg.maxCacheTime with
            | Option.none => true
            | some t => if t = 0 then true else decide (entry.creationtime > now - t)) then
          .ok ⟨entry.data, entry.contentType, false, store, true, false⟩
        else
          .ok ⟨(f.run args kwargs).1, (f.run args kwargs).2, true,
            storePut store key
              ⟨(f.run args kwargs).1, now, derivedPath ctx, (f.run args kwargs).2⟩,
            true, true⟩
      | Option.none =>
        .ok ⟨(f.run args kwargs).1, (f.run args kwargs).2, true,
          storePut store key
            ⟨(f.run args kwargs).1, now, derivedPath ctx, (f.run args kwargs).2⟩,
          true, true⟩

/-- C9: when caching is globally disabled, or the request carries the
bypass signal, or the derived path is not among the configured cacheable
urls, the wrapped handler calls the original handler and returns its
result unmodified, with no store read and no store write — in particular
nothing is ever persisted for a route outside the configured set. -/
theorem wrapF_bypass_no_store (cfg : WrapConfig) (f : Handler) (ctx : ReqCtx) (now : Int)
    (store : Store) (args : List Value) (kwargs : List (String × Value))
    (h : ctx.disableCacheConf = true ∨ ctx.reqDisableCache = true ∨
      derivedPath ctx ∉ cfg.urls) :
    wrapF cfg f ctx now store args kwargs =
      .ok ⟨(f.run args kwargs).1, (f.run args kwargs).2, true, store, false, false⟩ := by
  unfold wrapF
  by_cases hb : (ctx.disableCacheConf || ctx.reqDisableCache) = true
  · rw [if_pos hb]
  · rw [if_neg hb]
    rcases h with h | h | h
    · exact absurd (by simp [h]) hb
    · exact absurd (by simp [h]) hb
    · rw [if_pos h]

/-- Witness for C9: a request for `/admin/page/view` with `/page/view`
as the only cacheable url runs the handler directly on an untouched
store. -/
theorem wrapF_bypass_no_store_witness :
    wrapF ⟨["/page/view"], 0, false, [], Option.none⟩
        ⟨[], [], fun _ _ => (Value.str "body", "text/html")⟩
        ⟨false, false, 0, ["admin", "page", "view"], Option.none, "en", Option.none, some "v1"⟩
        5 [] [] [] =
      .ok ⟨Value.str "body", "text/html", true, [], false, false⟩ :=
  wrapF_bypass_no_store ⟨["/page/view"], 0, false, [], Option.none⟩
    ⟨[], [], fun _ _ => (Value.str "body", "text/html")⟩
    ⟨false, false, 0, ["admin", "page", "view"], Option.none, "en", Option.none, some "v1"⟩
    5 [] [] [] (Or.inr (Or.inr (by decide)))

/-- C4 counterexample: with `maxCacheTime = 0` (a legal integer
configuration), an entry created at time `0` and a lookup at time
`0 + 0 + 1` must, by the claim, be treated as stale — handler re-invoked
and entry overwritten. In the code `if not maxCacheTime` treats `0` like
`None`, so the entry is served from cache and the handler never runs. -/
theorem wrapF_staleness_counterexample :
    wrapF ⟨["/p"], 0, false, [], some 0⟩ ⟨[], [], fun _ _ => (Value.str "fresh", "text/html")⟩
        ⟨false, false, 0, ["p"], Option.none, "en", Option.none, some "v1"⟩ 1
        [([("__appVersion", Value.str "v1"), ("__path", Value.str "/p")],
          CacheEntry.mk (Value.str "cached") 0 "/p" "text/html")] [] [] =
      .ok ⟨Value.str "cached", "text/html", false,
        [([("__appVersion", Value.str "v1"), ("__path", Value.str "/p")],
          CacheEntry.mk (Value.str "cached") 0 "/p" "text/html")], true, false⟩ := by
  rfl

/-- C4 (amended): for a wrapped handler configured with a nonzero
`maxCacheTime = T` (`0` is falsy in the code and behaves like `None`,
cache-forever) and a stored entry for the computed key created at `c`: a
lookup at `c + T - ε` (any `ε > 0`) is served from the stored entry
without invoking the handler and without writing; a lookup at `c + T + ε`
is not served — the handler is re-invoked and the entry overwritten with
a fresh creation time, exactly as on a miss. -/
theorem wrapF_staleness (cfg : WrapConfig) (f : Handler) (ctx : ReqCtx) (store : Store)
    (args : List Value) (kwargs : List (String × Value)) (T ε c : Int) (key : CacheKey)
    (entry : CacheEntry)
    (hT : cfg.maxCacheTime = some T) (hT0 : T ≠ 0) (hε : 0 < ε)
    (h1 : ctx.disableCacheConf = false) (h2 : ctx.reqDisableCache = false)
    (hurl : derivedPath ctx ∈ cfg.urls)
    (hkey : keyFromArgs f cfg.userSensitive cfg.languageSensitive cfg.evaluatedArgs
      (derivedPath ctx) args kwargs ctx = .ok (some key))
    (hstore : storeGet store key = some entry)
    (hc : entry.creationtime = c) :
    wrapF cfg f ctx (c + T - ε) store args kwargs =
      .ok ⟨entry.data, entry.contentType, false, store, true, false⟩ ∧
    wrapF cfg f ctx (c + T + ε) store args kwargs =
      .ok ⟨(f.run args kwargs).1, (f.run args kwargs).2, true,
        storePut store key
          ⟨(f.run args kwargs).1, c + T + ε, derivedPath ctx, (f.run args kwargs).2⟩,
        true, true⟩ := by
  have hfresh : (entry.creationtime > (c + T - ε) - T) = True :=
    eq_true (by rw [hc]; omega)
  have hstale : (entry.creationtime > (c + T + ε) - T) = False :=
    eq_false (by rw [hc]; omega)
  constructor
  · unfold wrapF
    rw [h1, h2]
    simp only [Bool.or_self, Bool.false_eq_true, if_false, if_neg (not_not_intro hurl), hkey,
      hstore, hT]
    rw [if_neg hT0]
    simp [hfresh]
  · unfold wrapF
    rw [h1, h2]
    simp only [Bool.or_self, Bool.false_eq_true, if_false, if_neg (not_not_intro hurl), hkey,
      hstore, hT]
    rw [if_neg hT0]
    simp [hstale]

/-- Witness for the amended C4 at `T = 10`, `ε = 1`, entry created at
`0`: the lookup at `9` is served from the cache, the lookup at `11`
re-runs the handler and overwrites the entry. -/
theorem wrapF_staleness_witness :
    wrapF ⟨["/p"], 0, false, [], some 10⟩ ⟨[], [], fun _ _ => (Value.str "fresh", "text/html")⟩
        ⟨false, false, 0, ["p"], Option.none, "en", Option.none, some "v1"⟩ (0 + 10 - 1)
        [([("__appVersion", Value.str "v1"), ("__path", Value.str "/p")],
          CacheEntry.mk (Value.str "cached") 0 "/p" "text/html")] [] [] =
      .ok ⟨Value.str "cached", "text/html", false,
        [([("__appVersion", Value.str "v1"), ("__path", Value.str "/p")],
          CacheEntry.mk (Value.str "cached") 0 "/p" "text/html")], true, false⟩ ∧
    wrapF ⟨["/p"], 0, false, [], some 10⟩ ⟨[], [], fun _ _ => (Value.str "fresh", "text/html")⟩
        ⟨false, false, 0, ["p"], Option.none, "en", Option.none, some "v1"⟩ (0 + 10 + 1)
        [([("__appVersion", Value.str "v1"), ("__path", Value.str "/p")],
          CacheEntry.mk (Value.str "cached") 0 "/p" "text/html")] [] [] =
      .ok ⟨Value.str "fresh", "text/html", true,
        storePut
          [([("__appVersion", Value.str "v1"), ("__path", Value.str "/p")],
            CacheEntry.mk (Value.str "cached") 0 "/p" "text/html")]
          [("__appVersion", Value.str "v1"), ("__path", Value.str "/p")]
          (CacheEntry.mk (Value.str "fresh") (0 + 10 + 1) "/p" "text/html"),
        true, true⟩ :=
  wrapF_staleness ⟨["/p"], 0, false, [], some 10⟩
    ⟨[], [], fun _ _ => (Value.str "fresh", "text/html")⟩
    ⟨false, false, 0, ["p"], Option.none, "en", Option.none, some "v1"⟩
    [([("__appVersion", Value.str "v1"), ("__path", Value.str "/p")],
      CacheEntry.mk (Value.str "cached") 0 "/p" "text/html")] [] [] 10 1 0
    [("__appVersion", Value.str "v1"), ("__path", Value.str "/p")]
    (CacheEntry.mk (Value.str "cached") 0 "/p" "text/html")
    rfl (by decide) (by decide) rfl rfl (by decide) rfl rfl rfl
